import Mathlib

/-!
Verification of the backup worker in src/backup_worker.py.

The Python module watches a flat source directory for newly created .xml
files and copies each into a destination directory, never overwriting an
existing file (an incrementing " n" suffix is inserted before the
extension), retrying on permission failures, and periodically logging a
natural-order listing of both directories.

This file gives a shallow embedding of that module:
- strings are Lean strings; the POSIX flavor of os.path is modelled
  (separator character slash), with the same edge-case rules as posixpath
  for basename, dirname, splitext, join and relpath (relpath is modelled
  for already-normalized inputs, as produced by the watchdog library);
- filesystem state is passed explicitly: the destination snapshot is a
  list of existing paths, and the outcome of each shutil.copy2 attempt is
  an oracle from attempt index to result;
- the run of start_backup_worker is a trace of abstract actions over a
  finite schedule of poll-loop ticks, each tick carrying the value of
  time.time and of the external stop event at that iteration.

All definitions are executable and structurally recursive so that
concrete runs evaluate inside the kernel.
-/

namespace BackupWorker

/-! ## Python string primitives -/

/-- One character of Python str.lower: ASCII uppercase letters are mapped
to lowercase; every other character is left unchanged (the filenames
handled by the worker are ASCII). -/
def pyLowerChar (c : Char) : Char :=
  if 'A' ≤ c ∧ c ≤ 'Z' then Char.ofNat (c.toNat + 32) else c

/-- Python str.lower on a whole string. -/
def pyLower (s : String) : String := ⟨s.data.map pyLowerChar⟩

/-- Python str.startswith. -/
def pyStartsWith (s pre : String) : Bool := pre.data.isPrefixOf s.data

/-- Python str.endswith. -/
def pyEndsWith (s post : String) : Bool := post.data.isSuffixOf s.data

/-- Split a list at the last occurrence of a character: returns
(before, after) with the original list equal to before, the character,
after, and the character absent from after. none when absent. -/
def splitLast (c : Char) : List Char → Option (List Char × List Char)
  | [] => none
  | a :: rest =>
    match splitLast c rest with
    | some (pre, post) => some (a :: pre, post)
    | none => if a = c then some ([], rest) else none

/-- Remove trailing copies of a character. -/
def dropTrailing (c : Char) (l : List Char) : List Char :=
  (l.reverse.dropWhile (fun a => a = c)).reverse

/-! ## os.path (POSIX flavor) -/

/-- os.path.basename: the part after the last slash. -/
def basename (p : String) : String :=
  match splitLast '/' p.data with
  | some (_, post) => ⟨post⟩
  | none => p

/-- os.path.dirname: everything up to and including the last slash, with
trailing slashes stripped unless the result is all slashes. -/
def dirname (p : String) : String :=
  match splitLast '/' p.data with
  | none => ""
  | some (pre, _) =>
    let head := pre ++ ['/']
    if head.all (fun a => a = '/') then ⟨head⟩ else ⟨dropTrailing '/' head⟩

/-- os.path.splitext: split off the extension at the last dot of the
basename, provided that dot is preceded (within the basename) by some
non-dot character and followed by at least one character. -/
def splitext (p : String) : String × String :=
  match splitLast '/' p.data with
  | some (pre, post) =>
    match splitLast '.' post with
    | some (bpre, bpost) =>
      if bpre.all (fun a => a = '.') then (p, "")
      else (⟨pre ++ '/' :: bpre⟩, String.mk ('.' :: bpost))
    | none => (p, "")
  | none =>
    match splitLast '.' p.data with
    | some (bpre, bpost) =>
      if bpre.all (fun a => a = '.') then (p, "")
      else (⟨bpre⟩, String.mk ('.' :: bpost))
    | none => (p, "")

/-- os.path.join of a directory and a name (the cases the worker uses:
the second argument is a bare filename, not absolute). -/
def join (a b : String) : String :=
  if b.data.head? = some '/' then b
  else if a = "" ∨ a.data.getLast? = some '/' then a ++ b
  else a ++ "/" ++ b

/-- Path components: split on slashes, dropping empty pieces, as
os.path.relpath does after normalization. -/
def splitCharAux (c : Char) : List Char → List Char → List (List Char)
  | [], acc => [acc.reverse]
  | a :: rest, acc =>
    if a = c then acc.reverse :: splitCharAux c rest []
    else splitCharAux c rest (a :: acc)

/-- Nonempty slash-separated components of a path. -/
def pathComps (p : String) : List String :=
  ((splitCharAux '/' p.data []).map (fun l => (⟨l⟩ : String))).filter (fun s => s ≠ "")

/-- Join components with slashes. -/
def joinComps : List String → String
  | [] => ""
  | [a] => a
  | a :: rest => a ++ "/" ++ joinComps rest

/-- Component form of os.path.relpath: drop the common prefix, then one
".." per remaining component of the start directory followed by the
remaining components of the path. -/
def relCompsAux : List String → List String → List String
  | a :: p, b :: s => if a = b then relCompsAux p s else List.replicate (s.length + 1) ".." ++ (a :: p)
  | p, [] => p
  | [], s => List.replicate s.length ".."

/-- os.path.relpath for normalized inputs (no dot or dot-dot components,
both arguments rooted the same way), as delivered by watchdog events. -/
def relpath (p start : String) : String :=
  let r := relCompsAux (pathComps p) (pathComps start)
  if r = [] then "." else joinComps r

/-! ## Decimal rendering of the copy counter (f-string str(count)) -/

/-- Least-significant-first decimal digits, with explicit fuel so the
kernel can evaluate it. -/
def natDigitsRevAux : Nat → Nat → List Nat
  | 0, _ => []
  | fuel + 1, n => if n < 10 then [n] else n % 10 :: natDigitsRevAux fuel (n / 10)

/-- Least-significant-first decimal digits of a natural number. -/
def natDigitsRev (n : Nat) : List Nat := natDigitsRevAux (n + 1) n

/-- The character of one decimal digit. -/
def digitChar (d : Nat) : Char := Char.ofNat (48 + d)

/-- Decimal rendering of a natural number, as Python str does inside the
f-string building the suffixed destination name. -/
def natRepr (n : Nat) : String := ⟨(natDigitsRev n).reverse.map digitChar⟩

/-- Decoder of least-significant-first digit lists, used only to prove
that the decimal rendering is injective. -/
def fromRev : List Nat → Nat
  | [] => 0
  | d :: ds => d + 10 * fromRev ds

/-! ## Log stream and copy model (CopyHandler.copy_file_safely) -/

/-- One record handed to the injected logger. -/
inductive LogItem
  | info (msg : String)
  | warn (msg : String)
  | error (msg : String)
deriving DecidableEq

/-- Environment outcome of one shutil.copy2 call: success, a
PermissionError with its message, or any other exception. -/
inductive AttemptResult
  | success
  | permissionError (msg : String)
  | otherError (msg : String)
deriving DecidableEq

/-- Outcome of copy_file_safely for one source file. -/
inductive Outcome
  | Skipped
  | Copied (path : String)
  | Abandoned
deriving DecidableEq

/-- Observable effects of one copy_file_safely call: its outcome, the log
records it emitted in order, the destination paths actually written by a
successful shutil.copy2, the number of copy attempts made, and the number
of time.sleep(delay) waits performed. -/
structure CopyEffects where
  outcome : Outcome
  logs : List LogItem
  writes : List String
  attemptsMade : Nat
  sleeps : Nat
deriving DecidableEq

/-- Log template of line 73: temporary file skipped. -/
def tempSkipMsg (filename : String) : String :=
  "File temporaneo ignorato: " ++ filename

/-- Log template of lines 83-85: successful copy. -/
def copiedMsg (src newDest srcDir destDir : String) : String :=
  "File copiato: " ++ relpath src srcDir ++ " -> " ++ relpath newDest destDir

/-- Log template of line 89: permission denied, retrying. -/
def permRetryMsg (src : String) (attempt : Nat) : String :=
  "Permesso negato per " ++ src ++ ", ritento (" ++ natRepr (attempt + 1) ++ ")..."

/-- Log template of line 92: permission denied after all retries. -/
def permFailMsg (src : String) (retries : Nat) (msg : String) : String :=
  "Permesso negato per " ++ src ++ " dopo " ++ natRepr retries ++ " tentativi: " ++ msg

/-- Log template of lines 55 and 94: generic copy error. -/
def copyErrMsg (target msg : String) : String :=
  "Errore nella copia di " ++ target ++ ": " ++ msg

/-- The sequence of candidate destination paths probed by the while loop
of lines 75-78: the requested destination itself, then
base ++ " " ++ str(n) ++ ext for n = 1, 2, ... where (base, ext) is
splitext of the requested destination. -/
def candSeq (dest : String) : Nat → String
  | 0 => dest
  | n + 1 => (splitext dest).1 ++ " " ++ natRepr (n + 1) ++ (splitext dest).2

/-- The while loop of lines 75-78, with explicit fuel: probe the current
candidate against the snapshot of existing destination paths; while it
exists, move to base ++ " " ++ str(count) ++ ext and increment count. -/
def resolveFrom (existing : List String) (base ext : String) :
    Nat → String → Nat → String
  | 0, cand, _ => cand
  | fuel + 1, cand, count =>
    if cand ∈ existing then
      resolveFrom existing base ext fuel (base ++ " " ++ natRepr count ++ ext) (count + 1)
    else cand

/-- The destination resolved by the while loop of lines 75-78, starting
from the requested destination with count = 1. Fuel one more than the
snapshot size always suffices (proved below). -/
def resolveDest (existing : List String) (dest : String) : String :=
  resolveFrom existing (splitext dest).1 (splitext dest).2 (existing.length + 1) dest 1

/-- The for loop of lines 80-95 over attempt = 0, ..., retries-1, driven
by the oracle att giving each attempt outcome. remaining is the
structural fuel, retries - attempt at every reachable call. On success:
log and return. On PermissionError: if attempt < retries - 1, log a
warning, sleep and continue, else log an error (the loop then ends and
the function falls through, abandoning the file). On any other
exception: log an error and return. -/
def copyAttempts (att : Nat → AttemptResult) (src newDest srcDir destDir : String)
    (retries : Nat) : Nat → Nat → CopyEffects
  | _, 0 => ⟨Outcome.Abandoned, [], [], 0, 0⟩
  | attempt, remaining + 1 =>
    match att attempt with
    | AttemptResult.success =>
      ⟨Outcome.Copied newDest, [LogItem.info (copiedMsg src newDest srcDir destDir)],
        [newDest], 1, 0⟩
    | AttemptResult.permissionError msg =>
      if attempt < retries - 1 then
        let rest := copyAttempts att src newDest srcDir destDir retries (attempt + 1) remaining
        ⟨rest.outcome, LogItem.warn (permRetryMsg src attempt) :: rest.logs, rest.writes,
          rest.attemptsMade + 1, rest.sleeps + 1⟩
      else
        ⟨Outcome.Abandoned, [LogItem.error (permFailMsg src retries msg)], [], 1, 0⟩
    | AttemptResult.otherError msg =>
      ⟨Outcome.Abandoned, [LogItem.error (copyErrMsg src msg)], [], 1, 0⟩

/-- CopyHandler.copy_file_safely (lines 57-95). First the temporary-file
skip check on the basename of the source, then destination resolution
against the snapshot, then the bounded retry loop. -/
def copy_file_safely (src dest srcDir destDir : String) (existing : List String)
    (att : Nat → AttemptResult) (retries : Nat) : CopyEffects :=
  let filename := basename src
  if pyStartsWith filename "~$" || pyEndsWith filename ".tmp" then
    ⟨Outcome.Skipped, [LogItem.info (tempSkipMsg filename)], [], 0, 0⟩
  else
    copyAttempts att src (resolveDest existing dest) srcDir destDir retries 0 retries

/-! ## Event handling (CopyHandler.on_created) -/

/-- A watchdog filesystem creation event. -/
structure FsEvent where
  src_path : String
  is_directory : Bool

/-- Behavior of the copy_file_safely call made inside the try block of
lines 52-55: either it returns with some effects, or it raises after
having emitted some logs. -/
inductive CopyBehavior
  | returns (eff : CopyEffects)
  | raises (logsBefore : List LogItem) (msg : String)

/-- CopyHandler.on_created (lines 34-55). Directory events, events not
directly in the watched root, and non-.xml paths (case-insensitive) are
ignored. Otherwise copy_file_safely is invoked on the path and the
destination directory joined with its basename; an exception from that
call is caught and logged with the relative path. The result records the
invocation (source, destination) if one was made, and the emitted logs;
an Except.error result would be an exception escaping on_created, which
the catch-all handler makes impossible. -/
def on_created (srcDir destDir : String) (ev : FsEvent) (beh : CopyBehavior) :
    Except String (Option (String × String) × List LogItem) :=
  if ev.is_directory then Except.ok (none, [])
  else
    let rel_path := relpath ev.src_path srcDir
    if dirname rel_path ≠ "" then Except.ok (none, [])
    else if !(pyEndsWith (pyLower ev.src_path) ".xml") then Except.ok (none, [])
    else
      let dest_path := join destDir (basename ev.src_path)
      match beh with
      | CopyBehavior.returns eff => Except.ok (some (ev.src_path, dest_path), eff.logs)
      | CopyBehavior.raises plogs msg =>
        Except.ok (some (ev.src_path, dest_path),
          plogs ++ [LogItem.error (copyErrMsg rel_path msg)])

/-! ## Natural-order listing (list_files_windows_style, lines 97-126) -/

/-- The maximal trailing run of ASCII digits of a list. -/
def trailingDigits (l : List Char) : List Char :=
  (l.reverse.takeWhile Char.isDigit).reverse

/-- A list without its maximal trailing run of ASCII digits. -/
def stripTrailingDigits (l : List Char) : List Char :=
  (l.reverse.dropWhile Char.isDigit).reverse

/-- Numeric value of a decimal digit string (Python int). -/
def digitsToNat (l : List Char) : Nat :=
  l.foldl (fun a c => 10 * a + (c.toNat - 48)) 0

/-- extract_base_and_num (lines 113-120): the regex
(lazy prefix)(optional digit run)(final dot extension) anchored at both
ends. It matches exactly when the name has a dot followed by a nonempty
dot-free tail; the extension group is then that final dot plus tail, the
digit group is the maximal digit run ending just before it (value 0 when
absent), and the prefix group is the rest. On no match the fallback is
(filename, 0, ""). -/
def extract_base_and_num (filename : String) : String × Nat × String :=
  match splitLast '.' filename.data with
  | some (body, tail) =>
    if tail = [] then (filename, 0, "")
    else (⟨stripTrailingDigits body⟩, digitsToNat (trailingDigits body), String.mk ('.' :: tail))
  | none => (filename, 0, "")

/-- Python string comparison on character lists: lexicographic by code
point. -/
def pyStrLtL : List Char → List Char → Bool
  | [], [] => false
  | [], _ :: _ => true
  | _ :: _, [] => false
  | a :: xs, b :: ys => if a = b then pyStrLtL xs ys else decide (a.toNat < b.toNat)

/-- Python string less-than. -/
def pyStrLt (a b : String) : Bool := pyStrLtL a.data b.data

/-- Python tuple less-than on sort keys (str, int, str): lexicographic by
component. -/
def keyLt (x y : String × Nat × String) : Bool :=
  pyStrLt x.1 y.1 ||
    (x.1 == y.1 && (decide (x.2.1 < y.2.1) ||
      (x.2.1 == y.2.1 && pyStrLt x.2.2 y.2.2)))

/-- Key order between two filenames as Python sorted uses it: f may come
before g exactly when the key of g is not strictly below the key of f. -/
def fileKeyLE (f g : String) : Bool :=
  !(keyLt (extract_base_and_num g) (extract_base_and_num f))

/-- list_files_windows_style (lines 97-126). The directory listing is
passed as a list of (name, is-regular-file) pairs in arbitrary order; the
function keeps regular files whose lowercased name ends with the given
extension, and sorts them by key. Python sorted is a stable sort by the
key order, which insertion sort with fileKeyLE reproduces exactly. -/
def list_files_windows_style (entries : List (String × Bool)) (extension : String) :
    List String :=
  ((entries.filter (fun e => e.2 && pyEndsWith (pyLower e.1) extension)).map Prod.fst).insertionSort
    (fun f g => fileKeyLE f g = true)

/-- All ways to insert an element into a list (spec-side helper used to
quantify over every listing order of a directory). -/
def insertAll {α : Type _} (a : α) : List α → List (List α)
  | [] => [[a]]
  | b :: l => (a :: b :: l) :: (insertAll a l).map (fun t => b :: t)

/-- All permutations of a list, structurally recursive so that concrete
enumerations evaluate inside the kernel. -/
def perms {α : Type _} : List α → List (List α)
  | [] => [[]]
  | a :: l => (perms l).flatMap (insertAll a)

/-! ## Worker lifecycle (start_backup_worker, lines 156-191) -/

/-- One iteration of the poll loop: the value of time.time at this
iteration and whether the external stop event is set when checked. -/
structure Tick where
  time : Nat
  stopAsserted : Bool
deriving DecidableEq

/-- Abstract actions observable in a run of start_backup_worker. -/
inductive WAction
  | logInfo (msg : String)
  | logError (msg : String)
  | observerScheduleStart
  | sleep
  | logCounts
  | observerStop
  | observerJoin
deriving DecidableEq

/-- Log template of line 168: missing source directory. -/
def srcMissingMsg (d : String) : String :=
  "La directory sorgente non esiste: " ++ d

/-- Log template of line 171: missing destination directory. -/
def destMissingMsg (d : String) : String :=
  "La directory di destinazione non esiste: " ++ d

/-- Log template of line 174: start banner. -/
def startBannerMsg (s d : String) : String :=
  "Backup worker avviato: " ++ s ++ " -> " ++ d

/-- Whether an action is an error log. -/
def isErrorLog : WAction → Bool
  | WAction.logError _ => true
  | _ => false

/-- The while loop of lines 181-187 over a finite schedule of ticks,
carrying last_check. Each iteration sleeps one poll tick, then breaks if
a stop event was supplied and is set, then logs the counts and listings
and resets last_check if more than the reconciliation interval has
elapsed. Returns the actions performed and whether the loop exited (the
stop branch is the only exit). The comparison time - last_check >
interval is written additively since times are monotone. -/
def pollLoop (hasStop : Bool) (interval : Nat) : List Tick → Nat → List WAction × Bool
  | [], _ => ([], false)
  | tk :: rest, lastCheck =>
    if hasStop && tk.stopAsserted then ([WAction.sleep], true)
    else if lastCheck + interval < tk.time then
      let r := pollLoop hasStop interval rest tk.time
      (WAction.sleep :: WAction.logCounts :: r.1, r.2)
    else
      let r := pollLoop hasStop interval rest lastCheck
      (WAction.sleep :: r.1, r.2)

/-- Result of running start_backup_worker over a finite tick schedule:
the trace of actions, and whether the function has returned (validation
failure, or loop exit followed by the finally block; a run whose
schedule is exhausted while the loop is still going has not returned). -/
structure RunResult where
  trace : List WAction
  returned : Bool
deriving DecidableEq

/-- start_backup_worker (lines 156-191). Validation of both directories
(existence is passed as two booleans), then the start banner, the
observer subscription, the poll loop from the initial value t0 of
time.time, and on loop exit the finally block: observer stop, observer
join, termination banner. hasStop records whether an external stop event
was supplied (external_stop_event is not None). -/
def start_backup_worker (srcIsDir destIsDir : Bool) (srcDir destDir : String)
    (hasStop : Bool) (interval t0 : Nat) (ticks : List Tick) : RunResult :=
  if !srcIsDir then ⟨[WAction.logError (srcMissingMsg srcDir)], true⟩
  else if !destIsDir then ⟨[WAction.logError (destMissingMsg destDir)], true⟩
  else
    let r := pollLoop hasStop interval ticks t0
    if r.2 then
      ⟨WAction.logInfo (startBannerMsg srcDir destDir) :: WAction.observerScheduleStart ::
        r.1 ++ [WAction.observerStop, WAction.observerJoin,
          WAction.logInfo "Backup worker terminato"], true⟩
    else
      ⟨WAction.logInfo (startBannerMsg srcDir destDir) :: WAction.observerScheduleStart :: r.1,
        false⟩

/-! # Theorems -/

/-! ## Decimal rendering -/

theorem natDigitsRevAux_congr :
    ∀ f g n, n < f → n < g → natDigitsRevAux f n = natDigitsRevAux g n := by
  intro f
  induction f with
  | zero => intro g n h; omega
  | succ f1 ih =>
    intro g n hf hg
    cases g with
    | zero => omega
    | succ g1 =>
      simp only [natDigitsRevAux]
      by_cases h10 : n < 10
      · simp [h10]
      · have hpos : 0 < n := by omega
        have hdiv : n / 10 < n := Nat.div_lt_self hpos (by omega)
        simp only [h10, if_false]
        rw [ih g1 (n / 10) (by omega) (by omega)]

theorem natDigitsRev_low {n : Nat} (h : n < 10) : natDigitsRev n = [n] := by
  simp [natDigitsRev, natDigitsRevAux, h]

theorem natDigitsRevAux_step (fuel n : Nat) (h : 10 ≤ n) :
    natDigitsRevAux (fuel + 1) n = n % 10 :: natDigitsRevAux fuel (n / 10) := by
  have hn : ¬ n < 10 := by omega
  simp only [natDigitsRevAux]
  rw [if_neg hn]

theorem natDigitsRev_high {n : Nat} (h : 10 ≤ n) :
    natDigitsRev n = n % 10 :: natDigitsRev (n / 10) := by
  have hdiv : n / 10 < n := Nat.div_lt_self (by omega) (by omega)
  have h1 : natDigitsRev n = n % 10 :: natDigitsRevAux n (n / 10) :=
    natDigitsRevAux_step n n h
  rw [h1]
  have h2 : natDigitsRevAux n (n / 10) = natDigitsRevAux (n / 10 + 1) (n / 10) :=
    natDigitsRevAux_congr n (n / 10 + 1) (n / 10) hdiv (by omega)
  exact congrArg (fun l => n % 10 :: l) h2

theorem fromRev_natDigitsRev : ∀ n, fromRev (natDigitsRev n) = n := by
  intro n
  induction n using Nat.strong_induction_on with
  | _ n ih =>
    by_cases h : n < 10
    · rw [natDigitsRev_low h]; simp [fromRev]
    · have h10 : 10 ≤ n := by omega
      have hdiv : n / 10 < n := Nat.div_lt_self (by omega) (by omega)
      rw [natDigitsRev_high h10]
      simp only [fromRev, ih (n / 10) hdiv]
      omega

theorem natDigitsRev_injective {m n : Nat} (h : natDigitsRev m = natDigitsRev n) :
    m = n := by
  have hm := fromRev_natDigitsRev m
  have hn := fromRev_natDigitsRev n
  rw [h] at hm
  omega

theorem natDigitsRev_lt_ten : ∀ n d, d ∈ natDigitsRev n → d < 10 := by
  intro n
  induction n using Nat.strong_induction_on with
  | _ n ih =>
    intro d hd
    by_cases h : n < 10
    · rw [natDigitsRev_low h] at hd; simp at hd; omega
    · have h10 : 10 ≤ n := by omega
      have hdiv : n / 10 < n := Nat.div_lt_self (by omega) (by omega)
      rw [natDigitsRev_high h10] at hd
      rcases List.mem_cons.mp hd with h1 | h2
      · subst h1; exact Nat.mod_lt n (by omega)
      · exact ih (n / 10) hdiv d h2

theorem digitChar_inj_lt : ∀ d < 10, ∀ e < 10, digitChar d = digitChar e → d = e := by
  decide

theorem map_digitChar_inj :
    ∀ l1 l2 : List Nat, (∀ d ∈ l1, d < 10) → (∀ d ∈ l2, d < 10) →
      l1.map digitChar = l2.map digitChar → l1 = l2 := by
  intro l1
  induction l1 with
  | nil => intro l2 _ _ h; cases l2 <;> simp_all
  | cons a l ih =>
    intro l2 h1 h2 h
    cases l2 with
    | nil => simp_all
    | cons b l3 =>
      simp only [List.map_cons, List.cons.injEq] at h
      have ha : a < 10 := h1 a (by simp)
      have hb : b < 10 := h2 b (by simp)
      have hab : a = b := digitChar_inj_lt a ha b hb h.1
      have : l = l3 :=
        ih l3 (fun d hd => h1 d (by simp [hd])) (fun d hd => h2 d (by simp [hd])) h.2
      simp [hab, this]

theorem natRepr_injective {m n : Nat} (h : natRepr m = natRepr n) : m = n := by
  apply natDigitsRev_injective
  have hd : (natDigitsRev m).reverse.map digitChar = (natDigitsRev n).reverse.map digitChar :=
    congrArg String.data h
  have hrev : (natDigitsRev m).reverse = (natDigitsRev n).reverse := by
    apply map_digitChar_inj
    · intro d hd2; exact natDigitsRev_lt_ten m d (List.mem_reverse.mp hd2)
    · intro d hd2; exact natDigitsRev_lt_ten n d (List.mem_reverse.mp hd2)
    · exact hd
  exact List.reverse_inj.mp hrev

theorem natDigitsRev_ne_nil (n : Nat) : natDigitsRev n ≠ [] := by
  by_cases h : n < 10
  · rw [natDigitsRev_low h]; simp
  · rw [natDigitsRev_high (by omega)]; simp

theorem natRepr_length_pos (n : Nat) : 0 < (natRepr n).data.length := by
  simp only [natRepr, List.length_map, List.length_reverse]
  exact List.length_pos.mpr (natDigitsRev_ne_nil n)

/-! ## splitLast and splitext -/

theorem splitLast_eq_some {c : Char} :
    ∀ {l pre post : List Char}, splitLast c l = some (pre, post) →
      l = pre ++ c :: post := by
  intro l
  induction l with
  | nil => intro pre post h; simp [splitLast] at h
  | cons a rest ih =>
    intro pre post h
    simp only [splitLast] at h
    cases hrec : splitLast c rest with
    | some pq =>
      obtain ⟨p2, q2⟩ := pq
      rw [hrec] at h
      simp only [Option.some.injEq, Prod.mk.injEq] at h
      obtain ⟨h1, h2⟩ := h
      subst h1; subst h2
      simp [ih hrec]
    | none =>
      rw [hrec] at h
      by_cases hac : a = c
      · simp only [hac, if_true] at h
        simp only [Option.some.injEq, Prod.mk.injEq] at h
        obtain ⟨h1, h2⟩ := h
        subst h1; subst h2
        simp [hac]
      · simp [hac] at h

theorem splitext_data (p : String) :
    (splitext p).1.data ++ (splitext p).2.data = p.data := by
  obtain ⟨l⟩ := p
  simp only [splitext]
  cases hs : splitLast '/' l with
  | some pq =>
    obtain ⟨pre, post⟩ := pq
    have hl : l = pre ++ '/' :: post := splitLast_eq_some hs
    dsimp only
    cases hd : splitLast '.' post with
    | some bq =>
      obtain ⟨bpre, bpost⟩ := bq
      have hp : post = bpre ++ '.' :: bpost := splitLast_eq_some hd
      simp only [List.all_eq_true, decide_eq_true_eq]
      by_cases hall : ∀ x ∈ bpre, x = '.'
      · rw [if_pos hall]
        simp
      · rw [if_neg hall]
        rw [hl, hp]
        simp
    | none =>
      simp
  | none =>
    dsimp only
    cases hd : splitLast '.' l with
    | some bq =>
      obtain ⟨bpre, bpost⟩ := bq
      have hp : l = bpre ++ '.' :: bpost := splitLast_eq_some hd
      simp only [List.all_eq_true, decide_eq_true_eq]
      by_cases hall : ∀ x ∈ bpre, x = '.'
      · rw [if_pos hall]
        simp
      · rw [if_neg hall]
        rw [hp]
    | none =>
      simp

/-! ## The candidate sequence and destination resolution -/

theorem space_data_length : (" " : String).data.length = 1 := rfl

theorem candSeq_data (dest : String) (n : Nat) :
    (candSeq dest (n + 1)).data =
      (splitext dest).1.data ++ (" " : String).data ++ (natRepr (n + 1)).data ++
        (splitext dest).2.data := by
  simp [candSeq]

theorem candSeq_injective (dest : String) : Function.Injective (candSeq dest) := by
  have hsplit := congrArg List.length (splitext_data dest)
  simp only [List.length_append] at hsplit
  intro m n h
  match m, n with
  | 0, 0 => rfl
  | 0, n + 1 =>
    exfalso
    have h1 := congrArg (fun s : String => s.data.length) h
    simp only [candSeq_data, List.length_append, space_data_length] at h1
    have hr := natRepr_length_pos (n + 1)
    simp only [candSeq] at h1
    omega
  | m + 1, 0 =>
    exfalso
    have h1 := congrArg (fun s : String => s.data.length) h
    simp only [candSeq_data, List.length_append, space_data_length] at h1
    have hr := natRepr_length_pos (m + 1)
    simp only [candSeq] at h1
    omega
  | m + 1, n + 1 =>
    have h1 : (candSeq dest (m + 1)).data = (candSeq dest (n + 1)).data :=
      congrArg String.data h
    rw [candSeq_data, candSeq_data] at h1
    simp only [List.append_assoc] at h1
    have h2 := List.append_cancel_left h1
    have h3 := List.append_cancel_left h2
    have hlen : (natRepr (m + 1)).data.length = (natRepr (n + 1)).data.length := by
      have := congrArg List.length h3
      simp only [List.length_append] at this
      omega
    have h4 : (natRepr (m + 1)).data = (natRepr (n + 1)).data :=
      (List.append_inj h3 hlen).1
    have h5 : natRepr (m + 1) = natRepr (n + 1) :=
      congrArg (fun l => (⟨l⟩ : String)) h4
    have := natRepr_injective h5
    omega

theorem candSeq_exists_free (existing : List String) (dest : String) :
    ∃ n, n ≤ existing.length ∧ candSeq dest n ∉ existing := by
  by_contra hcon
  push_neg at hcon
  have hsub : (List.range (existing.length + 1)).map (candSeq dest) ⊆ existing := by
    intro x hx
    obtain ⟨i, hi, hix⟩ := List.mem_map.mp hx
    have : i ≤ existing.length := by
      have := List.mem_range.mp hi; omega
    rw [← hix]
    exact hcon i this
  have hnodup : ((List.range (existing.length + 1)).map (candSeq dest)).Nodup :=
    (List.nodup_range _).map (candSeq_injective dest)
  have hle := (hnodup.subperm hsub).length_le
  simp at hle

theorem resolveFrom_first_free (existing : List String) (dest : String) (N : Nat)
    (hfree : candSeq dest N ∉ existing) (hmin : ∀ m, m < N → candSeq dest m ∈ existing) :
    ∀ fuel k, k ≤ N → N - k < fuel →
      resolveFrom existing (splitext dest).1 (splitext dest).2 fuel (candSeq dest k) (k + 1) =
        candSeq dest N := by
  intro fuel
  induction fuel with
  | zero => intro k _ h; omega
  | succ f ih =>
    intro k hk hf
    by_cases hkN : k = N
    · subst hkN
      simp [resolveFrom, hfree]
    · have hklt : k < N := by omega
      have hmem : candSeq dest k ∈ existing := hmin k hklt
      simp only [resolveFrom, hmem, if_true]
      have hnext : (splitext dest).1 ++ " " ++ natRepr (k + 1) ++ (splitext dest).2 =
          candSeq dest (k + 1) := rfl
      rw [hnext]
      exact ih (k + 1) (by omega) (by omega)

theorem resolveDest_first_free (existing : List String) (dest : String) :
    ∃ n, resolveDest existing dest = candSeq dest n ∧ candSeq dest n ∉ existing ∧
      ∀ m, m < n → candSeq dest m ∈ existing := by
  have hex : ∃ n, candSeq dest n ∉ existing := by
    obtain ⟨n, _, hn⟩ := candSeq_exists_free existing dest
    exact ⟨n, hn⟩
  classical
  let N := Nat.find hex
  have hfree : candSeq dest N ∉ existing := Nat.find_spec hex
  have hmin : ∀ m, m < N → candSeq dest m ∈ existing := by
    intro m hm
    have := Nat.find_min hex hm
    simpa using this
  have hNle : N ≤ existing.length := by
    obtain ⟨n, hn1, hn2⟩ := candSeq_exists_free existing dest
    exact le_trans (Nat.find_min' hex hn2) hn1
  refine ⟨N, ?_, hfree, hmin⟩
  have := resolveFrom_first_free existing dest N hfree hmin (existing.length + 1) 0
    (by omega) (by omega)
  simpa [resolveDest, candSeq] using this

/-! ## The retry loop -/

theorem copyAttempts_writes (att : Nat → AttemptResult) (src newDest srcDir destDir : String)
    (retries : Nat) :
    ∀ remaining attempt,
      (copyAttempts att src newDest srcDir destDir retries attempt remaining).writes = [] ∨
      (copyAttempts att src newDest srcDir destDir retries attempt remaining).writes =
        [newDest] := by
  intro remaining
  induction remaining with
  | zero => intro attempt; left; rfl
  | succ r ih =>
    intro attempt
    simp only [copyAttempts]
    cases att attempt with
    | success => right; rfl
    | permissionError msg =>
      dsimp only
      by_cases hlt : attempt < retries - 1
      · rw [if_pos hlt]
        simpa using ih (attempt + 1)
      · rw [if_neg hlt]
        left; rfl
    | otherError msg => left; rfl

theorem warnRange_shift (src : String) (a jp : Nat) :
    (List.range (jp + 1)).map (fun i => LogItem.warn (permRetryMsg src (a + i))) =
      LogItem.warn (permRetryMsg src a) ::
        (List.range jp).map (fun i => LogItem.warn (permRetryMsg src (a + 1 + i))) := by
  rw [List.range_succ_eq_map, List.map_cons, List.map_map]
  refine congrArg₂ List.cons (by simp) ?_
  apply List.map_congr_left
  intro i hi
  simp only [Function.comp_apply]
  have : a + (i + 1) = a + 1 + i := by omega
  rw [this]

theorem copyAttempts_perm_steps (att : Nat → AttemptResult)
    (src newDest srcDir destDir : String) (retries : Nat) (msgs : Nat → String) :
    ∀ (j attempt remaining : Nat), attempt + remaining = retries → j < remaining →
      (∀ i, i < j → att (attempt + i) = AttemptResult.permissionError (msgs (attempt + i))) →
      copyAttempts att src newDest srcDir destDir retries attempt remaining =
        { outcome := (copyAttempts att src newDest srcDir destDir retries (attempt + j)
            (remaining - j)).outcome,
          logs := ((List.range j).map (fun i => LogItem.warn (permRetryMsg src (attempt + i)))) ++
            (copyAttempts att src newDest srcDir destDir retries (attempt + j)
              (remaining - j)).logs,
          writes := (copyAttempts att src newDest srcDir destDir retries (attempt + j)
            (remaining - j)).writes,
          attemptsMade := (copyAttempts att src newDest srcDir destDir retries (attempt + j)
            (remaining - j)).attemptsMade + j,
          sleeps := (copyAttempts att src newDest srcDir destDir retries (attempt + j)
            (remaining - j)).sleeps + j } := by
  intro j
  induction j with
  | zero =>
    intro attempt remaining h1 h2 h3
    simp
  | succ jp ih =>
    intro attempt remaining h1 h2 h3
    obtain ⟨r2, rfl⟩ : ∃ r2, remaining = r2 + 1 := ⟨remaining - 1, by omega⟩
    have hatt : att attempt = AttemptResult.permissionError (msgs attempt) := by
      have h0 := h3 0 (by omega)
      simpa using h0
    have hlt : attempt < retries - 1 := by omega
    simp only [copyAttempts, hatt]
    rw [if_pos hlt]
    have ihh := ih (attempt + 1) r2 (by omega) (by omega) (fun i hi => by
      have hh := h3 (i + 1) (by omega)
      have he : attempt + (i + 1) = attempt + 1 + i := by omega
      rw [he] at hh
      exact hh)
    rw [ihh]
    have e1 : attempt + 1 + jp = attempt + (jp + 1) := by omega
    have e2 : r2 - jp = r2 + 1 - (jp + 1) := by omega
    rw [e1, e2]
    dsimp only
    simp only [CopyEffects.mk.injEq, true_and, and_true]
    refine ⟨?_, by omega, by omega⟩
    rw [warnRange_shift src attempt jp]
    simp

theorem copyAttempts_success_at (att : Nat → AttemptResult)
    (src newDest srcDir destDir : String) (retries : Nat) (msgs : Nat → String) (k : Nat)
    (hk : k < retries)
    (hperm : ∀ i, i < k → att i = AttemptResult.permissionError (msgs i))
    (hsucc : att k = AttemptResult.success) :
    copyAttempts att src newDest srcDir destDir retries 0 retries =
      ⟨Outcome.Copied newDest,
        ((List.range k).map fun i => LogItem.warn (permRetryMsg src i)) ++
          [LogItem.info (copiedMsg src newDest srcDir destDir)],
        [newDest], k + 1, k⟩ := by
  have hstep := copyAttempts_perm_steps att src newDest srcDir destDir retries msgs k 0 retries
    (by omega) hk (fun i hi => by simpa using hperm i hi)
  simp only [Nat.zero_add] at hstep
  rw [hstep]
  obtain ⟨r2, hr2⟩ : ∃ r2, retries - k = r2 + 1 := ⟨retries - k - 1, by omega⟩
  rw [hr2]
  simp only [copyAttempts, hsucc]
  simp only [CopyEffects.mk.injEq, true_and, and_true]
  omega

theorem copyAttempts_perm_exhaust (att : Nat → AttemptResult)
    (src newDest srcDir destDir : String) (retries : Nat) (msgs : Nat → String)
    (h1 : 1 ≤ retries)
    (hperm : ∀ i, i < retries → att i = AttemptResult.permissionError (msgs i)) :
    copyAttempts att src newDest srcDir destDir retries 0 retries =
      ⟨Outcome.Abandoned,
        ((List.range (retries - 1)).map fun i => LogItem.warn (permRetryMsg src i)) ++
          [LogItem.error (permFailMsg src retries (msgs (retries - 1)))],
        [], retries, retries - 1⟩ := by
  have hstep := copyAttempts_perm_steps att src newDest srcDir destDir retries msgs
    (retries - 1) 0 retries (by omega) (by omega) (fun i hi => by simpa using hperm i (by omega))
  simp only [Nat.zero_add] at hstep
  rw [hstep]
  have hrm : retries - (retries - 1) = 1 := by omega
  rw [hrm]
  have hlast := hperm (retries - 1) (by omega)
  simp only [copyAttempts, hlast]
  have hnot : ¬ (retries - 1 < retries - 1) := by omega
  rw [if_neg hnot]
  simp only [CopyEffects.mk.injEq, true_and, and_true]
  omega

theorem copyAttempts_other_at (att : Nat → AttemptResult)
    (src newDest srcDir destDir : String) (retries : Nat) (msgs : Nat → String)
    (j : Nat) (emsg : String)
    (hj : j < retries)
    (hperm : ∀ i, i < j → att i = AttemptResult.permissionError (msgs i))
    (hother : att j = AttemptResult.otherError emsg) :
    copyAttempts att src newDest srcDir destDir retries 0 retries =
      ⟨Outcome.Abandoned,
        ((List.range j).map fun i => LogItem.warn (permRetryMsg src i)) ++
          [LogItem.error (copyErrMsg src emsg)],
        [], j + 1, j⟩ := by
  have hstep := copyAttempts_perm_steps att src newDest srcDir destDir retries msgs j 0 retries
    (by omega) hj (fun i hi => by simpa using hperm i hi)
  simp only [Nat.zero_add] at hstep
  rw [hstep]
  obtain ⟨r2, hr2⟩ : ∃ r2, retries - j = r2 + 1 := ⟨retries - j - 1, by omega⟩
  rw [hr2]
  simp only [copyAttempts, hother]
  simp only [CopyEffects.mk.injEq, true_and, and_true]
  omega

/-- C1: over a fixed destination-directory snapshot, the destination
resolved by copy_file_safely is the first path in the sequence dest,
base " 1" ext, base " 2" ext, ... that does not already exist in the
snapshot, and a successful copy writes only to that previously
nonexistent path, so no existing destination file is ever overwritten. -/
theorem copy_file_safely_no_overwrite (src dest srcDir destDir : String)
    (existing : List String) (att : Nat → AttemptResult) (retries : Nat) :
    (∃ n, resolveDest existing dest = candSeq dest n ∧ candSeq dest n ∉ existing ∧
      ∀ m, m < n → candSeq dest m ∈ existing) ∧
    (∀ p, p ∈ (copy_file_safely src dest srcDir destDir existing att retries).writes →
      p = resolveDest existing dest ∧ p ∉ existing) := by
  refine ⟨resolveDest_first_free existing dest, ?_⟩
  intro p hp
  obtain ⟨n, hn1, hn2, _⟩ := resolveDest_first_free existing dest
  simp only [copy_file_safely] at hp
  by_cases hskip : (pyStartsWith (basename src) "~$" || pyEndsWith (basename src) ".tmp") = true
  · rw [if_pos hskip] at hp
    simp at hp
  · rw [if_neg hskip] at hp
    rcases copyAttempts_writes att src (resolveDest existing dest) srcDir destDir retries
        retries 0 with hw | hw
    · rw [hw] at hp
      simp at hp
    · rw [hw] at hp
      simp at hp
      subst hp
      exact ⟨rfl, by rw [hn1]; exact hn2⟩

theorem copy_file_safely_no_overwrite_witness :
    "/dest/a 1.xml" = resolveDest ["/dest/a.xml"] "/dest/a.xml" ∧
      "/dest/a 1.xml" ∉ ["/dest/a.xml"] :=
  (copy_file_safely_no_overwrite "/src/a.xml" "/dest/a.xml" "/src" "/dest"
    ["/dest/a.xml"] (fun _ => AttemptResult.success) 3).2 "/dest/a 1.xml" (by decide)

/-- C2: with the temporary-name skip not applying, if the first k copy
attempts raise PermissionError with k < retries and attempt k succeeds,
the file is copied on attempt k+1 to the destination resolved once
before the loop (not re-resolved), with one delay wait between
consecutive attempts; if all retries attempts raise PermissionError, an
error is logged and the file is abandoned after exactly retries
attempts; a non-permission failure at any attempt causes an immediate
error log and abandonment with no further attempt. -/
theorem copy_file_safely_retry_policy (src dest srcDir destDir : String)
    (existing : List String) (att : Nat → AttemptResult) (retries : Nat)
    (msgs : Nat → String)
    (hskip : (pyStartsWith (basename src) "~$" || pyEndsWith (basename src) ".tmp") = false) :
    (∀ k, k < retries →
      (∀ i, i < k → att i = AttemptResult.permissionError (msgs i)) →
      att k = AttemptResult.success →
      copy_file_safely src dest srcDir destDir existing att retries =
        ⟨Outcome.Copied (resolveDest existing dest),
          ((List.range k).map fun i => LogItem.warn (permRetryMsg src i)) ++
            [LogItem.info (copiedMsg src (resolveDest existing dest) srcDir destDir)],
          [resolveDest existing dest], k + 1, k⟩) ∧
    (1 ≤ retries →
      (∀ i, i < retries → att i = AttemptResult.permissionError (msgs i)) →
      copy_file_safely src dest srcDir destDir existing att retries =
        ⟨Outcome.Abandoned,
          ((List.range (retries - 1)).map fun i => LogItem.warn (permRetryMsg src i)) ++
            [LogItem.error (permFailMsg src retries (msgs (retries - 1)))],
          [], retries, retries - 1⟩) ∧
    (∀ j emsg, j < retries →
      (∀ i, i < j → att i = AttemptResult.permissionError (msgs i)) →
      att j = AttemptResult.otherError emsg →
      copy_file_safely src dest srcDir destDir existing att retries =
        ⟨Outcome.Abandoned,
          ((List.range j).map fun i => LogItem.warn (permRetryMsg src i)) ++
            [LogItem.error (copyErrMsg src emsg)],
          [], j + 1, j⟩) := by
  have hun : copy_file_safely src dest srcDir destDir existing att retries =
      copyAttempts att src (resolveDest existing dest) srcDir destDir retries 0 retries := by
    simp only [copy_file_safely]
    rw [if_neg (by simp [hskip])]
  refine ⟨?_, ?_, ?_⟩
  · intro k hk hperm hsucc
    rw [hun]
    exact copyAttempts_success_at att src (resolveDest existing dest) srcDir destDir retries
      msgs k hk hperm hsucc
  · intro h1 hperm
    rw [hun]
    exact copyAttempts_perm_exhaust att src (resolveDest existing dest) srcDir destDir retries
      msgs h1 hperm
  · intro j emsg hj hperm hother
    rw [hun]
    exact copyAttempts_other_at att src (resolveDest existing dest) srcDir destDir retries
      msgs j emsg hj hperm hother

theorem copy_file_safely_retry_policy_witness :
    copy_file_safely "/src/a.xml" "/dest/a.xml" "/src" "/dest" []
        (fun i => if i < 1 then AttemptResult.permissionError "locked"
          else AttemptResult.success) 3 =
      ⟨Outcome.Copied "/dest/a.xml",
        [LogItem.warn (permRetryMsg "/src/a.xml" 0),
          LogItem.info (copiedMsg "/src/a.xml" "/dest/a.xml" "/src" "/dest")],
        ["/dest/a.xml"], 2, 1⟩ := by
  have h := (copy_file_safely_retry_policy "/src/a.xml" "/dest/a.xml" "/src" "/dest" []
      (fun i => if i < 1 then AttemptResult.permissionError "locked"
        else AttemptResult.success) 3
      (fun _ => "locked") (by decide)).1 1 (by decide)
      (by
        intro i hi
        have h0 : i = 0 := by omega
        subst h0
        rfl)
      (by decide)
  rw [h]
  decide

/-- C4: a source file whose basename starts with the tilde-dollar marker
or ends with .tmp is logged once at info level and skipped before any
destination-existence probe, copy attempt, or retry: the result is
Skipped with zero attempts, zero sleeps and no write, and it does not
depend on the requested destination, the snapshot, the attempt oracle or
the retry budget, even when the extension of the file otherwise
qualifies. -/
theorem copy_file_safely_skips_temp (src dest dest2 srcDir destDir : String)
    (existing existing2 : List String) (att att2 : Nat → AttemptResult)
    (retries retries2 : Nat)
    (h : pyStartsWith (basename src) "~$" = true ∨ pyEndsWith (basename src) ".tmp" = true) :
    copy_file_safely src dest srcDir destDir existing att retries =
      ⟨Outcome.Skipped, [LogItem.info (tempSkipMsg (basename src))], [], 0, 0⟩ ∧
    copy_file_safely src dest srcDir destDir existing att retries =
      copy_file_safely src dest2 srcDir destDir existing2 att2 retries2 := by
  have hcond : (pyStartsWith (basename src) "~$" || pyEndsWith (basename src) ".tmp") = true := by
    rcases h with h | h <;> simp [h]
  have h1 : copy_file_safely src dest srcDir destDir existing att retries =
      ⟨Outcome.Skipped, [LogItem.info (tempSkipMsg (basename src))], [], 0, 0⟩ := by
    simp only [copy_file_safely]
    rw [if_pos hcond]
  have h2 : copy_file_safely src dest2 srcDir destDir existing2 att2 retries2 =
      ⟨Outcome.Skipped, [LogItem.info (tempSkipMsg (basename src))], [], 0, 0⟩ := by
    simp only [copy_file_safely]
    rw [if_pos hcond]
  exact ⟨h1, by rw [h1, h2]⟩

theorem copy_file_safely_skips_temp_witness :
    copy_file_safely "/src/~$draft.xml" "/dest/~$draft.xml" "/src" "/dest" []
        (fun _ => AttemptResult.success) 3 =
      ⟨Outcome.Skipped, [LogItem.info (tempSkipMsg (basename "/src/~$draft.xml"))],
        [], 0, 0⟩ :=
  (copy_file_safely_skips_temp "/src/~$draft.xml" "/dest/~$draft.xml" "/dest/other.xml"
    "/src" "/dest" [] ["/dest/x.xml"] (fun _ => AttemptResult.success)
    (fun _ => AttemptResult.otherError "disk") 3 0 (Or.inl (by decide))).1

/-! ## Event filtering -/

theorem splitLast_eq_none_of_not_mem {c : Char} :
    ∀ {l : List Char}, c ∉ l → splitLast c l = none := by
  intro l
  induction l with
  | nil => intro _; rfl
  | cons a rest ih =>
    intro h
    have ha : a ≠ c := fun hac => h (by simp [hac])
    have hrest : c ∉ rest := fun hc => h (by simp [hc])
    simp only [splitLast, ih hrest]
    rw [if_neg ha]

theorem splitLast_isSome_of_mem {c : Char} :
    ∀ {l : List Char}, c ∈ l → ∃ pre post, splitLast c l = some (pre, post) := by
  intro l
  induction l with
  | nil => intro h; simp at h
  | cons a rest ih =>
    intro h
    by_cases hrest : c ∈ rest
    · obtain ⟨pre, post, hp⟩ := ih hrest
      exact ⟨a :: pre, post, by simp only [splitLast, hp]⟩
    · have ha : a = c := by
        rcases List.mem_cons.mp h with h1 | h2
        · exact h1.symm
        · exact absurd h2 hrest
      refine ⟨[], rest, ?_⟩
      simp only [splitLast, splitLast_eq_none_of_not_mem hrest]
      rw [if_pos ha]

theorem dirname_eq_empty_iff (s : String) : dirname s = "" ↔ '/' ∉ s.data := by
  constructor
  · intro h
    intro hmem
    obtain ⟨pre, post, hp⟩ := splitLast_isSome_of_mem hmem
    rw [dirname, hp] at h
    dsimp only at h
    by_cases hall : ((pre ++ ['/']).all fun a => a = '/') = true
    · rw [if_pos hall] at h
      have := congrArg String.data h
      simp at this
    · rw [if_neg hall] at h
      have hda := congrArg String.data h
      simp only [dropTrailing] at hda
      have hempty : ((pre ++ ['/']).reverse.dropWhile (fun a => a = '/')).reverse = [] := by
        simpa using hda
      have hall2 : ∀ x ∈ (pre ++ ['/']).reverse, (fun a => decide (a = '/')) x = true := by
        rw [← List.dropWhile_eq_nil_iff]
        simpa using hempty
      apply hall
      rw [List.all_eq_true]
      intro x hx
      exact hall2 x (List.mem_reverse.mpr hx)
  · intro h
    rw [dirname, splitLast_eq_none_of_not_mem h]

/-- C3: a creation event leads to a copy attempt exactly when it is not a
directory event, its path relative to the watched root contains no
directory separator (it lies directly in the root), and the lowercased
path ends with .xml; the attempted copy is then invoked on the event
path with destination the destination directory joined with the basename
of the event path. -/
theorem on_created_filter_spec (srcDir destDir : String) (ev : FsEvent)
    (beh : CopyBehavior) :
    ∀ res, on_created srcDir destDir ev beh = Except.ok res →
      ((res.1 ≠ none) ↔
        (ev.is_directory = false ∧ '/' ∉ (relpath ev.src_path srcDir).data ∧
          pyEndsWith (pyLower ev.src_path) ".xml" = true)) ∧
      (∀ s d, res.1 = some (s, d) →
        s = ev.src_path ∧ d = join destDir (basename ev.src_path)) := by
  intro res hres
  simp only [on_created] at hres
  by_cases hdir : ev.is_directory = true
  · rw [if_pos (by simp [hdir])] at hres
    injection hres with h
    subst h
    refine ⟨⟨fun hne => absurd rfl hne, fun hc => ?_⟩, fun s d hsd => by simp at hsd⟩
    rw [hdir] at hc
    simp at hc
  · have hdirf : ev.is_directory = false := by
      cases hb : ev.is_directory
      · rfl
      · exact absurd hb hdir
    rw [if_neg (by simp [hdirf])] at hres
    by_cases hrel : dirname (relpath ev.src_path srcDir) = ""
    · rw [if_neg (by simp [hrel])] at hres
      by_cases hxml : pyEndsWith (pyLower ev.src_path) ".xml" = true
      · rw [if_neg (by simp [hxml])] at hres
        have hsep : '/' ∉ (relpath ev.src_path srcDir).data :=
          (dirname_eq_empty_iff _).mp hrel
        cases beh with
        | returns eff =>
          injection hres with h
          subst h
          refine ⟨⟨fun _ => ⟨hdirf, hsep, hxml⟩, fun _ => by simp⟩, fun s d hsd => ?_⟩
          simp only [Option.some.injEq, Prod.mk.injEq] at hsd
          exact ⟨hsd.1.symm, hsd.2.symm⟩
        | raises plogs msg =>
          injection hres with h
          subst h
          refine ⟨⟨fun _ => ⟨hdirf, hsep, hxml⟩, fun _ => by simp⟩, fun s d hsd => ?_⟩
          simp only [Option.some.injEq, Prod.mk.injEq] at hsd
          exact ⟨hsd.1.symm, hsd.2.symm⟩
      · rw [if_pos (by simp [hxml])] at hres
        injection hres with h
        subst h
        exact ⟨⟨fun hne => absurd rfl hne, fun hc => absurd hc.2.2 hxml⟩,
          fun s d hsd => by simp at hsd⟩
    · rw [if_pos (by simp [hrel])] at hres
      injection hres with h
      subst h
      refine ⟨⟨fun hne => absurd rfl hne, fun hc => ?_⟩, fun s d hsd => by simp at hsd⟩
      exact (hrel ((dirname_eq_empty_iff _).mpr hc.2.1)).elim

theorem on_created_filter_spec_witness :
    "/watch/a.xml" = "/watch/a.xml" ∧
      "/dest/a.xml" = join "/dest" (basename "/watch/a.xml") :=
  ((on_created_filter_spec "/watch" "/dest" ⟨"/watch/a.xml", false⟩
      (CopyBehavior.returns ⟨Outcome.Skipped, [], [], 0, 0⟩)
      (some ("/watch/a.xml", join "/dest" (basename "/watch/a.xml")),
        ([] : List LogItem)) rfl).2) "/watch/a.xml" "/dest/a.xml" (by rfl)

/-- C6: on_created never lets an exception escape: for every event and
every behavior of the inner copy call, the handler returns normally, and
when the copy call raised after the filters passed, the emitted logs end
with an error record containing the event path relative to the watched
root, so a single bad event cannot terminate the watchdog subscription. -/
theorem on_created_exception_handling (srcDir destDir : String) (ev : FsEvent)
    (beh : CopyBehavior) :
    ∃ res, on_created srcDir destDir ev beh = Except.ok res ∧
      (∀ plogs msg, beh = CopyBehavior.raises plogs msg → res.1 ≠ none →
        res.2 = plogs ++
          [LogItem.error (copyErrMsg (relpath ev.src_path srcDir) msg)]) := by
  by_cases hdir : ev.is_directory = true
  · refine ⟨(none, []), ?_, ?_⟩
    · simp only [on_created]
      rw [if_pos (by simp [hdir])]
    · intro plogs msg _ hne
      exact absurd rfl hne
  · have hdirf : ev.is_directory = false := by
      cases hb : ev.is_directory
      · rfl
      · exact absurd hb hdir
    by_cases hrel : dirname (relpath ev.src_path srcDir) = ""
    · by_cases hxml : pyEndsWith (pyLower ev.src_path) ".xml" = true
      · cases beh with
        | returns eff =>
          refine ⟨(some (ev.src_path, join destDir (basename ev.src_path)), eff.logs), ?_, ?_⟩
          · simp only [on_created]
            rw [if_neg (by simp [hdirf]), if_neg (by simp [hrel]), if_neg (by simp [hxml])]
          · intro plogs msg hb _
            cases hb
        | raises plogs0 msg0 =>
          refine ⟨(some (ev.src_path, join destDir (basename ev.src_path)),
            plogs0 ++ [LogItem.error (copyErrMsg (relpath ev.src_path srcDir) msg0)]),
            ?_, ?_⟩
          · simp only [on_created]
            rw [if_neg (by simp [hdirf]), if_neg (by simp [hrel]), if_neg (by simp [hxml])]
          · intro plogs msg hb _
            injection hb with h1 h2
            subst h1
            subst h2
            rfl
      · refine ⟨(none, []), ?_, ?_⟩
        · simp only [on_created]
          rw [if_neg (by simp [hdirf]), if_neg (by simp [hrel]), if_pos (by simp [hxml])]
        · intro plogs msg _ hne
          exact absurd rfl hne
    · refine ⟨(none, []), ?_, ?_⟩
      · simp only [on_created]
        rw [if_neg (by simp [hdirf]), if_pos (by simp [hrel])]
      · intro plogs msg _ hne
        exact absurd rfl hne

theorem on_created_exception_handling_witness :
    (some ("/watch/a.xml", join "/dest" (basename "/watch/a.xml")),
        [LogItem.error (copyErrMsg (relpath "/watch/a.xml" "/watch") "boom")]).2 =
      ([] : List LogItem) ++
        [LogItem.error (copyErrMsg (relpath "/watch/a.xml" "/watch") "boom")] := by
  obtain ⟨res, h1, h2⟩ := on_created_exception_handling "/watch" "/dest"
    ⟨"/watch/a.xml", false⟩ (CopyBehavior.raises [] "boom")
  have hcomp : on_created "/watch" "/dest" ⟨"/watch/a.xml", false⟩
      (CopyBehavior.raises [] "boom") =
      Except.ok (some ("/watch/a.xml", join "/dest" (basename "/watch/a.xml")),
        [LogItem.error (copyErrMsg (relpath "/watch/a.xml" "/watch") "boom")]) := by
    rfl
  rw [hcomp] at h1
  injection h1 with h
  rw [h]
  exact h2 [] "boom" rfl (by rw [← h]; simp)

/-! ## Order properties of the natural-sort key -/

theorem char_toNat_ofNat {n : Nat} (h : n.isValidChar) : (Char.ofNat n).toNat = n := by
  rw [Char.ofNat, dif_pos h]
  rfl

theorem char_le_iff_toNat {a b : Char} : a ≤ b ↔ a.toNat ≤ b.toNat := by
  rw [Char.le_def, UInt32.le_def]
  exact ⟨fun h => h, fun h => h⟩

theorem char_eq_of_toNat_eq {a b : Char} (h : a.toNat = b.toNat) : a = b := by
  apply Char.ext
  apply UInt32.eq_of_toBitVec_eq
  apply BitVec.eq_of_toNat_eq
  exact h

theorem pyStrLtL_irrefl : ∀ l, pyStrLtL l l = false := by
  intro l
  induction l with
  | nil => rfl
  | cons a xs ih => simp [pyStrLtL, ih]

theorem pyStrLtL_asymm : ∀ l m, pyStrLtL l m = true → pyStrLtL m l = false := by
  intro l
  induction l with
  | nil =>
    intro m h
    cases m with
    | nil => simp [pyStrLtL] at h
    | cons b ys => rfl
  | cons a xs ih =>
    intro m h
    cases m with
    | nil => simp [pyStrLtL] at h
    | cons b ys =>
      simp only [pyStrLtL] at h ⊢
      by_cases hab : a = b
      · subst hab
        rw [if_pos rfl] at h ⊢
        exact ih ys h
      · rw [if_neg hab] at h
        rw [if_neg (fun hba => hab hba.symm)]
        simp only [decide_eq_true_eq] at h
        simp only [decide_eq_false_iff_not]
        omega

theorem pyStrLtL_trans : ∀ l m n, pyStrLtL l m = true → pyStrLtL m n = true →
    pyStrLtL l n = true := by
  intro l
  induction l with
  | nil =>
    intro m n h1 h2
    cases m with
    | nil => simp [pyStrLtL] at h1
    | cons b ys =>
      cases n with
      | nil => simp [pyStrLtL] at h2
      | cons c zs => rfl
  | cons a xs ih =>
    intro m n h1 h2
    cases m with
    | nil => simp [pyStrLtL] at h1
    | cons b ys =>
      cases n with
      | nil => simp [pyStrLtL] at h2
      | cons c zs =>
        simp only [pyStrLtL] at h1 h2 ⊢
        by_cases hab : a = b
        · subst hab
          rw [if_pos rfl] at h1
          by_cases hbc : a = c
          · subst hbc
            rw [if_pos rfl] at h2 ⊢
            exact ih ys zs h1 h2
          · rw [if_neg hbc] at h2 ⊢
            exact h2
        · rw [if_neg hab] at h1
          simp only [decide_eq_true_eq] at h1
          by_cases hbc : b = c
          · subst hbc
            rw [if_neg hab]
            simp only [decide_eq_true_eq]
            exact h1
          · rw [if_neg hbc] at h2
            simp only [decide_eq_true_eq] at h2
            have hac : a ≠ c := by
              intro he
              subst he
              omega
            rw [if_neg hac]
            simp only [decide_eq_true_eq]
            omega

theorem pyStrLtL_connex : ∀ l m, pyStrLtL l m = false → pyStrLtL m l = false → l = m := by
  intro l
  induction l with
  | nil =>
    intro m h1 _
    cases m with
    | nil => rfl
    | cons b ys => simp [pyStrLtL] at h1
  | cons a xs ih =>
    intro m h1 h2
    cases m with
    | nil => simp [pyStrLtL] at h2
    | cons b ys =>
      simp only [pyStrLtL] at h1 h2
      by_cases hab : a = b
      · subst hab
        rw [if_pos rfl] at h1 h2
        rw [ih ys h1 h2]
      · rw [if_neg hab] at h1
        rw [if_neg (fun hba => hab hba.symm)] at h2
        simp only [decide_eq_false_iff_not] at h1 h2
        exact absurd (char_eq_of_toNat_eq (by omega)) hab

theorem pyStrLt_asymm {a b : String} (h : pyStrLt a b = true) : pyStrLt b a = false :=
  pyStrLtL_asymm a.data b.data h

theorem pyStrLt_trans {a b c : String} (h1 : pyStrLt a b = true)
    (h2 : pyStrLt b c = true) : pyStrLt a c = true :=
  pyStrLtL_trans a.data b.data c.data h1 h2

theorem pyStrLt_irrefl (a : String) : pyStrLt a a = false :=
  pyStrLtL_irrefl a.data

theorem pyStrLt_connex {a b : String} (h1 : pyStrLt a b = false)
    (h2 : pyStrLt b a = false) : a = b := by
  have hd := pyStrLtL_connex a.data b.data h1 h2
  obtain ⟨la⟩ := a
  obtain ⟨lb⟩ := b
  exact congrArg String.mk hd

theorem keyLt_iff {x y : String × Nat × String} :
    keyLt x y = true ↔
      (pyStrLt x.1 y.1 = true ∨ (x.1 = y.1 ∧ (x.2.1 < y.2.1 ∨
        (x.2.1 = y.2.1 ∧ pyStrLt x.2.2 y.2.2 = true)))) := by
  simp [keyLt, Bool.or_eq_true, Bool.and_eq_true, beq_iff_eq, decide_eq_true_eq]

theorem keyLt_asymm {x y : String × Nat × String} (h : keyLt x y = true) :
    keyLt y x = false := by
  obtain ⟨x1, x2, x3⟩ := x
  obtain ⟨y1, y2, y3⟩ := y
  rw [Bool.eq_false_iff]
  intro hcon
  rw [keyLt_iff] at h hcon
  dsimp only at h hcon
  rcases h with h1 | ⟨he1, hrest⟩
  · rcases hcon with hc1 | ⟨hf1, _⟩
    · simp [pyStrLt_asymm h1] at hc1
    · rw [hf1] at h1
      simp [pyStrLt_irrefl] at h1
  · subst he1
    rcases hcon with hc1 | ⟨_, hcrest⟩
    · simp [pyStrLt_irrefl] at hc1
    · rcases hrest with h2 | ⟨he2, h3⟩
      · rcases hcrest with hc2 | ⟨hf2, _⟩
        · omega
        · omega
      · rcases hcrest with hc2 | ⟨hf2, hc3⟩
        · omega
        · simp [pyStrLt_asymm h3] at hc3

theorem keyLt_trans {x y z : String × Nat × String} (h1 : keyLt x y = true)
    (h2 : keyLt y z = true) : keyLt x z = true := by
  obtain ⟨x1, x2, x3⟩ := x
  obtain ⟨y1, y2, y3⟩ := y
  obtain ⟨z1, z2, z3⟩ := z
  rw [keyLt_iff] at h1 h2 ⊢
  dsimp only at h1 h2 ⊢
  rcases h1 with ha | ⟨he1, hrest1⟩
  · rcases h2 with hb | ⟨hf1, _⟩
    · exact Or.inl (pyStrLt_trans ha hb)
    · rw [hf1] at ha
      exact Or.inl ha
  · subst he1
    rcases h2 with hb | ⟨hf1, hrest2⟩
    · exact Or.inl hb
    · subst hf1
      refine Or.inr ⟨rfl, ?_⟩
      rcases hrest1 with h2a | ⟨he2, h3a⟩
      · rcases hrest2 with h2b | ⟨hf2, _⟩
        · exact Or.inl (by omega)
        · exact Or.inl (by omega)
      · subst he2
        rcases hrest2 with h2b | ⟨hf2, h3b⟩
        · exact Or.inl h2b
        · subst hf2
          exact Or.inr ⟨rfl, pyStrLt_trans h3a h3b⟩

theorem keyLt_connex {x y : String × Nat × String} (h1 : keyLt x y = false)
    (h2 : keyLt y x = false) : x = y := by
  obtain ⟨x1, x2, x3⟩ := x
  obtain ⟨y1, y2, y3⟩ := y
  have n1 : ¬ (keyLt (x1, x2, x3) (y1, y2, y3) = true) := by simp [h1]
  have n2 : ¬ (keyLt (y1, y2, y3) (x1, x2, x3) = true) := by simp [h2]
  rw [keyLt_iff] at n1 n2
  dsimp only at n1 n2
  push_neg at n1 n2
  have e1 : pyStrLt x1 y1 = false := by simpa using n1.1
  have e2 : pyStrLt y1 x1 = false := by simpa using n2.1
  have hx1 : x1 = y1 := pyStrLt_connex e1 e2
  subst hx1
  have m1 := n1.2 rfl
  have m2 := n2.2 rfl
  have hx2 : x2 = y2 := by omega
  subst hx2
  have f1 : pyStrLt x3 y3 = false := by simpa using m1.2 rfl
  have f2 : pyStrLt y3 x3 = false := by simpa using m2.2 rfl
  have hx3 : x3 = y3 := pyStrLt_connex f1 f2
  subst hx3
  rfl

theorem fileKeyLE_total (f g : String) : fileKeyLE f g = true ∨ fileKeyLE g f = true := by
  by_cases h : keyLt (extract_base_and_num g) (extract_base_and_num f) = true
  · right
    simp only [fileKeyLE, Bool.not_eq_true']
    exact keyLt_asymm h
  · left
    simp only [fileKeyLE, Bool.not_eq_true']
    simpa using h

theorem fileKeyLE_trans (f g k : String) (h1 : fileKeyLE f g = true)
    (h2 : fileKeyLE g k = true) : fileKeyLE f k = true := by
  simp only [fileKeyLE, Bool.not_eq_true'] at h1 h2 ⊢
  by_contra hcon
  have hc : keyLt (extract_base_and_num k) (extract_base_and_num f) = true := by
    revert hcon
    cases keyLt (extract_base_and_num k) (extract_base_and_num f) <;> simp
  by_cases hfg : keyLt (extract_base_and_num f) (extract_base_and_num g) = true
  · have hkg := keyLt_trans hc hfg
    simp [h2] at hkg
  · have hfgf : keyLt (extract_base_and_num f) (extract_base_and_num g) = false := by
      revert hfg
      cases keyLt (extract_base_and_num f) (extract_base_and_num g) <;> simp
    have heq := keyLt_connex hfgf h1
    rw [heq] at hc
    simp [h2] at hc

theorem mem_insertAll_of_split {α : Type _} (a : α) :
    ∀ (u v : List α), (u ++ a :: v) ∈ insertAll a (u ++ v) := by
  intro u
  induction u with
  | nil =>
    intro v
    cases v with
    | nil => simp [insertAll]
    | cons b t => simp [insertAll]
  | cons b u2 ih =>
    intro v
    simp only [List.cons_append, insertAll, List.mem_cons]
    right
    exact List.mem_map.mpr ⟨u2 ++ a :: v, ih v, rfl⟩

theorem mem_perms_of_perm {α : Type _} :
    ∀ {l2 l1 : List α}, l1.Perm l2 → l1 ∈ perms l2 := by
  intro l2
  induction l2 with
  | nil =>
    intro l1 h
    have hn : l1 = [] := List.perm_nil.mp h
    subst hn
    simp [perms]
  | cons a t ih =>
    intro l1 h
    have ha : a ∈ l1 := h.symm.subset (by simp)
    obtain ⟨u, v, rfl⟩ := List.append_of_mem ha
    have hperm : (u ++ v).Perm t := by
      have h2 : (u ++ a :: v).Perm (a :: (u ++ v)) := List.perm_middle
      have h3 := h2.symm.trans h
      exact (List.perm_cons a).mp h3
    simp only [perms, List.mem_flatMap]
    exact ⟨u ++ v, ih hperm, mem_insertAll_of_split a u v⟩

/-- C5: list_files_windows_style returns the kept filenames sorted by
the key (prefix, trailingNumber, extension) with prefix and extension
compared as Python strings and the trailing number numerically; the
output is a permutation of the filtered names; and on a directory
holding exactly b.xml, b1.xml, b2.xml, b10.xml, in every listing order,
it returns them in that numeric-aware order. -/
theorem list_files_windows_style_spec (entries : List (String × Bool))
    (extension : String) :
    (list_files_windows_style entries extension).Pairwise
      (fun f g => fileKeyLE f g = true) ∧
    (list_files_windows_style entries extension).Perm
      ((entries.filter (fun e => e.2 && pyEndsWith (pyLower e.1) extension)).map
        Prod.fst) ∧
    (∀ l, l.Perm ([("b.xml", true), ("b1.xml", true), ("b2.xml", true),
        ("b10.xml", true)] : List (String × Bool)) →
      list_files_windows_style l ".xml" = ["b.xml", "b1.xml", "b2.xml", "b10.xml"]) := by
  refine ⟨?_, ?_, ?_⟩
  · haveI ht : IsTotal String (fun f g => fileKeyLE f g = true) := ⟨fileKeyLE_total⟩
    haveI htr : IsTrans String (fun f g => fileKeyLE f g = true) := ⟨fileKeyLE_trans⟩
    exact List.sorted_insertionSort _ _
  · exact List.perm_insertionSort _ _
  · intro l hl
    have hm : l ∈ perms ([("b.xml", true), ("b1.xml", true), ("b2.xml", true),
        ("b10.xml", true)] : List (String × Bool)) := mem_perms_of_perm hl
    have hall : ((perms ([("b.xml", true), ("b1.xml", true), ("b2.xml", true),
        ("b10.xml", true)] : List (String × Bool))).all
      (fun l2 => list_files_windows_style l2 ".xml" ==
        ["b.xml", "b1.xml", "b2.xml", "b10.xml"])) = true := by decide
    have := List.all_eq_true.mp hall l hm
    simpa using this

theorem list_files_windows_style_spec_witness :
    list_files_windows_style ([("b.xml", true), ("b1.xml", true), ("b2.xml", true),
        ("b10.xml", true)] : List (String × Bool)) ".xml" =
      ["b.xml", "b1.xml", "b2.xml", "b10.xml"] :=
  (list_files_windows_style_spec [] ".xml").2.2 _ (List.Perm.refl _)

/-! ## Case handling of the extension filter -/

theorem pyLowerChar_not_upper (c0 : Char) :
    ¬('A' ≤ pyLowerChar c0 ∧ pyLowerChar c0 ≤ 'Z') := by
  intro hc
  obtain ⟨h1, h2⟩ := hc
  rw [char_le_iff_toNat] at h1 h2
  have hA : ('A' : Char).toNat = 65 := rfl
  have hZ : ('Z' : Char).toNat = 90 := rfl
  rw [hA] at h1
  rw [hZ] at h2
  by_cases hup : 'A' ≤ c0 ∧ c0 ≤ 'Z'
  · have ha : 65 ≤ c0.toNat := by
      have := hup.1
      rw [char_le_iff_toNat, hA] at this
      exact this
    have hz : c0.toNat ≤ 90 := by
      have := hup.2
      rw [char_le_iff_toNat, hZ] at this
      exact this
    have hval : (c0.toNat + 32).isValidChar := by
      left
      omega
    have hlow : pyLowerChar c0 = Char.ofNat (c0.toNat + 32) := by
      simp only [pyLowerChar]
      rw [if_pos hup]
    rw [hlow, char_toNat_ofNat hval] at h1 h2
    omega
  · have hlow : pyLowerChar c0 = c0 := by
      simp only [pyLowerChar]
      rw [if_neg hup]
    rw [hlow] at h1 h2
    apply hup
    constructor
    · rw [char_le_iff_toNat, hA]
      exact h1
    · rw [char_le_iff_toNat, hZ]
      exact h2

/-- C10: the extension filter lowercases only the filename side: the
default .xml extension therefore keeps files named with .XML or .Xml,
while an extension argument containing any ASCII uppercase letter can
match no lowercased name and selects no files at all. -/
theorem list_files_extension_case (entries : List (String × Bool)) (extension : String)
    (h : ∃ c ∈ extension.data, 'A' ≤ c ∧ c ≤ 'Z') :
    list_files_windows_style entries extension = [] ∧
    list_files_windows_style [("report.XML", true), ("data.Xml", true)] ".xml" =
      ["data.Xml", "report.XML"] := by
  constructor
  · have hfil : entries.filter (fun e => e.2 && pyEndsWith (pyLower e.1) extension) = [] := by
      rw [List.filter_eq_nil_iff]
      intro e hmem hcon
      rw [Bool.and_eq_true] at hcon
      obtain ⟨c, hc, hAc⟩ := h
      have hsuffix : extension.data <:+ (pyLower e.1).data :=
        List.isSuffixOf_iff_suffix.mp hcon.2
      have hmem2 : c ∈ (pyLower e.1).data := hsuffix.subset hc
      simp only [pyLower] at hmem2
      obtain ⟨c0, _, hc0⟩ := List.mem_map.mp hmem2
      rw [← hc0] at hAc
      exact pyLowerChar_not_upper c0 hAc
    simp only [list_files_windows_style, hfil, List.map_nil]
    rfl
  · decide

theorem list_files_extension_case_witness :
    list_files_windows_style [("a.XML", true)] ".XML" = [] ∧
    list_files_windows_style [("report.XML", true), ("data.Xml", true)] ".xml" =
      ["data.Xml", "report.XML"] :=
  list_files_extension_case [("a.XML", true)] ".XML" ⟨('X' : Char), by decide, by decide⟩

/-! ## Worker lifecycle -/

theorem pollLoop_no_stop (interval : Nat) :
    ∀ (ticks : List Tick) (lastCheck : Nat),
      (pollLoop false interval ticks lastCheck).2 = false := by
  intro ticks
  induction ticks with
  | nil => intro lc; rfl
  | cons tk rest ih =>
    intro lc
    simp only [pollLoop]
    rw [if_neg (by simp)]
    by_cases hc : lc + interval < tk.time
    · rw [if_pos hc]
      exact ih tk.time
    · rw [if_neg hc]
      exact ih lc

theorem pollLoop_stopped_spec (interval : Nat) :
    ∀ (ticks : List Tick) (lc : Nat) (hasStop : Bool),
      (pollLoop hasStop interval ticks lc).2 = true →
      hasStop = true ∧ ∃ tk, tk ∈ ticks ∧ tk.stopAsserted = true := by
  intro ticks
  induction ticks with
  | nil =>
    intro lc hasStop h
    simp [pollLoop] at h
  | cons tk rest ih =>
    intro lc hasStop h
    simp only [pollLoop] at h
    by_cases hc : (hasStop && tk.stopAsserted) = true
    · rw [if_pos hc] at h
      rw [Bool.and_eq_true] at hc
      exact ⟨hc.1, tk, by simp, hc.2⟩
    · rw [if_neg hc] at h
      by_cases h2 : lc + interval < tk.time
      · rw [if_pos h2] at h
        obtain ⟨hs, tk2, hm, hset⟩ := ih tk.time hasStop h
        exact ⟨hs, tk2, by simp [hm], hset⟩
      · rw [if_neg h2] at h
        obtain ⟨hs, tk2, hm, hset⟩ := ih lc hasStop h
        exact ⟨hs, tk2, by simp [hm], hset⟩

theorem pollLoop_first_stop (interval : Nat) :
    ∀ (pre : List Tick) (tk : Tick) (rest : List Tick) (lc : Nat),
      (∀ t, t ∈ pre → t.stopAsserted = false) → tk.stopAsserted = true →
      (pollLoop true interval (pre ++ tk :: rest) lc).2 = true ∧
      ((pollLoop true interval (pre ++ tk :: rest) lc).1.count WAction.sleep =
        pre.length + 1) := by
  intro pre
  induction pre with
  | nil =>
    intro tk rest lc _ hstop
    simp only [List.nil_append, pollLoop]
    rw [if_pos (by simp [hstop])]
    constructor
    · rfl
    · simp
  | cons t pre2 ih =>
    intro tk rest lc hpre hstop
    have ht : t.stopAsserted = false := hpre t (by simp)
    simp only [List.cons_append, pollLoop]
    rw [if_neg (by simp [ht])]
    have ihh := fun lc2 => ih tk rest lc2 (fun t2 hm => hpre t2 (by simp [hm])) hstop
    by_cases hc : lc + interval < t.time
    · rw [if_pos hc]
      refine ⟨(ihh t.time).1, ?_⟩
      have hcnt := (ihh t.time).2
      dsimp only
      simp only [List.count_cons, List.length_cons]
      simpa using hcnt
    · rw [if_neg hc]
      refine ⟨(ihh lc).1, ?_⟩
      have hcnt := (ihh lc).2
      dsimp only
      simp only [List.count_cons, List.length_cons]
      simpa using hcnt

/-- C7: if the source directory or the destination directory does not
exist when start_backup_worker is called, it logs exactly one error
naming the missing directory and returns normally, without starting the
event observer, logging any reconciliation counts, or logging the start
banner: the running state is never entered. -/
theorem start_backup_worker_validation (srcIsDir destIsDir : Bool)
    (srcDir destDir : String) (hasStop : Bool) (interval t0 : Nat) (ticks : List Tick)
    (h : srcIsDir = false ∨ destIsDir = false) :
    (start_backup_worker srcIsDir destIsDir srcDir destDir hasStop interval t0
      ticks).returned = true ∧
    (if srcIsDir = false then
      (start_backup_worker srcIsDir destIsDir srcDir destDir hasStop interval t0
        ticks).trace = [WAction.logError (srcMissingMsg srcDir)]
    else
      (start_backup_worker srcIsDir destIsDir srcDir destDir hasStop interval t0
        ticks).trace = [WAction.logError (destMissingMsg destDir)]) ∧
    ((start_backup_worker srcIsDir destIsDir srcDir destDir hasStop interval t0
      ticks).trace.countP (fun a => isErrorLog a) = 1) ∧
    WAction.observerScheduleStart ∉ (start_backup_worker srcIsDir destIsDir srcDir destDir
      hasStop interval t0 ticks).trace ∧
    WAction.logCounts ∉ (start_backup_worker srcIsDir destIsDir srcDir destDir hasStop
      interval t0 ticks).trace ∧
    WAction.logInfo (startBannerMsg srcDir destDir) ∉ (start_backup_worker srcIsDir
      destIsDir srcDir destDir hasStop interval t0 ticks).trace := by
  by_cases hs : srcIsDir = false
  · subst hs
    have ht : start_backup_worker false destIsDir srcDir destDir hasStop interval t0
        ticks = ⟨[WAction.logError (srcMissingMsg srcDir)], true⟩ := rfl
    rw [ht]
    refine ⟨rfl, ?_, ?_, ?_, ?_, ?_⟩
    · rw [if_pos rfl]
    · simp [isErrorLog]
    · simp
    · simp
    · simp
  · have hst : srcIsDir = true := by
      revert hs
      cases srcIsDir <;> simp
    subst hst
    have hd : destIsDir = false := by
      rcases h with h | h
      · simp at h
      · exact h
    subst hd
    have ht : start_backup_worker true false srcDir destDir hasStop interval t0 ticks =
        ⟨[WAction.logError (destMissingMsg destDir)], true⟩ := rfl
    rw [ht]
    refine ⟨rfl, ?_, ?_, ?_, ?_, ?_⟩
    · rw [if_neg (by simp)]
    · simp [isErrorLog]
    · simp
    · simp
    · simp

theorem start_backup_worker_validation_witness :
    (start_backup_worker false true "/missing" "/d" true 60 0 []).returned = true :=
  (start_backup_worker_validation false true "/missing" "/d" true 60 0 []
    (Or.inl rfl)).1

/-- C8: at every poll tick where more than the reconciliation interval
has elapsed since the last check and the stop event is not observed set,
the counts-and-listings log is emitted at that very tick and the
interval clock resets, so the log recurs at least once per elapsed
interval while running; and once the stop event is set, the poll loop
exits at the first tick observing it — one sleep beyond the preceding
ticks — after which the observer is stopped, joined, and the
termination banner is logged before start_backup_worker returns. -/
theorem worker_reconciliation_and_stop (srcDir destDir : String) (interval t0 : Nat)
    (pre rest : List Tick) (tk : Tick) :
    (∀ (tk2 : Tick) (rest2 : List Tick) (lc : Nat),
      tk2.stopAsserted = false → lc + interval < tk2.time →
      pollLoop true interval (tk2 :: rest2) lc =
        (WAction.sleep :: WAction.logCounts ::
            (pollLoop true interval rest2 tk2.time).1,
          (pollLoop true interval rest2 tk2.time).2)) ∧
    ((∀ t, t ∈ pre → t.stopAsserted = false) → tk.stopAsserted = true →
      (pollLoop true interval (pre ++ tk :: rest) t0).1.count WAction.sleep =
        pre.length + 1 ∧
      (start_backup_worker true true srcDir destDir true interval t0
        (pre ++ tk :: rest)).returned = true ∧
      (start_backup_worker true true srcDir destDir true interval t0
          (pre ++ tk :: rest)).trace =
        WAction.logInfo (startBannerMsg srcDir destDir) ::
          WAction.observerScheduleStart ::
          (pollLoop true interval (pre ++ tk :: rest) t0).1 ++
          [WAction.observerStop, WAction.observerJoin,
            WAction.logInfo "Backup worker terminato"]) := by
  constructor
  · intro tk2 rest2 lc hstop hel
    simp only [pollLoop]
    rw [if_neg (by simp [hstop]), if_pos hel]
  · intro hpre hstop
    obtain ⟨hstopped, hcount⟩ := pollLoop_first_stop interval pre tk rest t0 hpre hstop
    refine ⟨hcount, ?_, ?_⟩
    · simp only [start_backup_worker]
      rw [if_neg (by simp), if_neg (by simp)]
      simp only [hstopped]
      rfl
    · simp only [start_backup_worker]
      rw [if_neg (by simp), if_neg (by simp)]
      simp only [hstopped]
      rfl

theorem worker_reconciliation_and_stop_witness :
    (pollLoop true 60 ([Tick.mk 10 false] ++ Tick.mk 20 true :: []) 0).1.count
        WAction.sleep = 2 ∧
    (start_backup_worker true true "/w" "/d" true 60 0
      ([Tick.mk 10 false] ++ Tick.mk 20 true :: [])).returned = true ∧
    (start_backup_worker true true "/w" "/d" true 60 0
        ([Tick.mk 10 false] ++ Tick.mk 20 true :: [])).trace =
      WAction.logInfo (startBannerMsg "/w" "/d") :: WAction.observerScheduleStart ::
        (pollLoop true 60 ([Tick.mk 10 false] ++ Tick.mk 20 true :: []) 0).1 ++
        [WAction.observerStop, WAction.observerJoin,
          WAction.logInfo "Backup worker terminato"] :=
  (worker_reconciliation_and_stop "/w" "/d" 60 0 [Tick.mk 10 false] [] (Tick.mk 20
    true)).2 (by decide) (by decide)

/-- C9: with no external stop event supplied and both directories
existing, the poll loop has no exit path: over every finite tick
schedule the function has not returned; conversely, a run that has
returned after successful validation requires that a stop event was
supplied and that some tick observed it set. -/
theorem start_backup_worker_requires_stop (srcDir destDir : String)
    (interval t0 : Nat) :
    (∀ ticks : List Tick,
      (start_backup_worker true true srcDir destDir false interval t0 ticks).returned =
        false) ∧
    (∀ (hasStop : Bool) (ticks : List Tick),
      (start_backup_worker true true srcDir destDir hasStop interval t0
        ticks).returned = true →
      hasStop = true ∧ ∃ tk, tk ∈ ticks ∧ tk.stopAsserted = true) := by
  constructor
  · intro ticks
    simp only [start_backup_worker]
    rw [if_neg (by simp), if_neg (by simp)]
    simp only [pollLoop_no_stop interval ticks t0]
    rfl
  · intro hasStop ticks h
    simp only [start_backup_worker] at h
    rw [if_neg (by simp), if_neg (by simp)] at h
    by_cases hp : (pollLoop hasStop interval ticks t0).2 = true
    · exact pollLoop_stopped_spec interval ticks t0 hasStop hp
    · exfalso
      have hfalse : (pollLoop hasStop interval ticks t0).2 = false := by
        revert hp
        cases (pollLoop hasStop interval ticks t0).2 <;> simp
      simp only [hfalse] at h
      simp at h

theorem start_backup_worker_requires_stop_witness :
    true = true ∧ ∃ tk, tk ∈ [Tick.mk 5 true] ∧ tk.stopAsserted = true :=
  (start_backup_worker_requires_stop "/w" "/d" 60 0).2 true [Tick.mk 5 true]
    (by decide)

end BackupWorker
